import Mathlib

/-!
Verification development for the `lora-captioner` dataset-preparation
pipeline.  The Python modules `image_processor.py`, `captioner.py` and the
captioning loop of `cli.py` are shallowly embedded below: filenames are
lists of characters, directories are opaque strings, the filesystem is an
association list from paths to content identifiers, and the external
vision-language model is an oracle argument.
-/

/-- Lower-case a character list (models Python `str.lower()` on ASCII names). -/
def lowerChars (s : List Char) : List Char := s.map Char.toLower

/-- Lower-case a Lean string (models Python `str.lower()`). -/
def toLowerStr (s : String) : String := ⟨s.data.map Char.toLower⟩

/-- Extension of a file name, embedding `pathlib.PurePath.suffix`:
`i = name.rfind('.')`; the suffix is `name[i:]` when `0 < i < len(name)-1`
and empty otherwise.  `k` counts the characters after the last dot, so the
last dot sits at index `len - 1 - k`; the two side conditions become
`0 < k` and `k + 1 < len`.  When they hold the suffix is the dot followed
by the `k` trailing characters. -/
def suffixOf (name : List Char) : List Char :=
  let k := (name.reverse.takeWhile (fun c => c ≠ '.')).length
  if 0 < k ∧ k + 1 < name.length then
    '.' :: (name.reverse.take k).reverse
  else []

/-- Stem of a file name: the name with its suffix removed
(models `pathlib.PurePath.stem`). -/
def stemOf (name : List Char) : List Char :=
  name.take (name.length - (suffixOf name).length)

/-- A filesystem path, split as pathlib does into the parent directory
(kept opaque as a string) and the final component. -/
structure FsPath where
  dir : String
  fname : List Char
deriving DecidableEq

/-- `image_path.with_suffix(".txt")` from `write_caption_file` /
`cli.main`: same parent, stem plus `.txt`. -/
def withSuffixTxt (p : FsPath) : FsPath :=
  ⟨p.dir, stemOf p.fname ++ ".txt".data⟩

/-! ## Captioner (`captioner.py`) -/

/-- `LoRAType` enumeration from `captioner.py`. -/
inductive LoRAType where
  | character
  | style
  | concept
deriving DecidableEq

/-- The style submode tag named by the specification
(`tags | natural | mixed`); it has no counterpart in the source. -/
inductive StyleSubmode where
  | tags
  | natural
  | mixed
deriving DecidableEq

/-- `BLIP_PROMPTS` table.  The Python dict has one entry per enum member,
so it is embedded as a total function. -/
def BLIP_PROMPTS : LoRAType → String
  | .character => "a photo of"
  | .style => "an image of"
  | .concept => "a picture showing"

/-- `FLORENCE_INSTRUCTIONS` table, one entry per enum member. -/
def FLORENCE_INSTRUCTIONS : LoRAType → String
  | .character => "<MORE_DETAILED_CAPTION>"
  | .style => "<GENERATE_TAGS>"
  | .concept => "<DETAILED_CAPTION>"

/-- `get_blip_prompt`: dict lookup with the style entry as default; the
dict is total on the enum, so the lookup always hits. -/
def get_blip_prompt (lora_type : LoRAType) : String :=
  BLIP_PROMPTS lora_type

/-- `get_florence_instruction`: dict lookup with the style entry as
default; the dict is total on the enum, so the lookup always hits. -/
def get_florence_instruction (lora_type : LoRAType) : String :=
  FLORENCE_INSTRUCTIONS lora_type

/-- The branch of `caption_image` that selects the model family:
`_caption_with_florence` when `model_type.lower() == "florence"`, else
`_caption_with_blip`.  The two helpers wrap the external model, so their
already-stripped outputs are oracle arguments. -/
def select_model_caption (florenceResult blipResult : String)
    (model_type : String) : String :=
  if toLowerStr model_type = "florence" then florenceResult else blipResult

/-- `caption_image` (`captioner.py`): select the model branch, then
prepend the trigger word when it is truthy (Python `if trigger_word:` is
false for `None` and for the empty string). -/
def caption_image (florenceResult blipResult : String)
    (model_type : String) (trigger_word : Option String) : String :=
  let caption := select_model_caption florenceResult blipResult model_type
  match trigger_word with
  | none => caption
  | some t => if t = "" then caption else t ++ ", " ++ caption

/-- `caption_batch` (`captioner.py`): per-image try/except; a raised
exception `e` is recorded as the pair `(path, "ERROR: " ++ e)` and the
loop continues.  The model invocation is the oracle `captionOf`. -/
def caption_batch (captionOf : FsPath → Except String String) :
    List FsPath → List (FsPath × String)
  | [] => []
  | p :: rest =>
    (match captionOf p with
     | .ok c => (p, c)
     | .error e => (p, "ERROR: " ++ e)) :: caption_batch captionOf rest

/-- The captioning loop of `cli.main` (non-dry-run): per image, invoke the
model; on failure record `(path, str(e))` in the error list and continue;
on success write the caption to `path.with_suffix(".txt")`, a write
failure being recorded as `(path, "Write error: " ++ e)`.  Returns the
written caption files (path and content, in order) and the error list. -/
def cli_caption_loop (captionOf : FsPath → Except String String)
    (writeRes : FsPath → Except String Unit) :
    List FsPath → List (FsPath × String) × List (FsPath × String)
  | [] => ([], [])
  | p :: rest =>
    match captionOf p with
    | .error e =>
      let r := cli_caption_loop captionOf writeRes rest
      (r.1, (p, e) :: r.2)
    | .ok caption =>
      let caption_path := withSuffixTxt p
      match writeRes caption_path with
      | .error e =>
        let r := cli_caption_loop captionOf writeRes rest
        (r.1, (p, "Write error: " ++ e) :: r.2)
      | .ok _ =>
        let r := cli_caption_loop captionOf writeRes rest
        ((caption_path, caption) :: r.1, r.2)

/-- Whether a model invocation succeeded. -/
def exceptOk {ε α : Type} : Except ε α → Bool
  | .ok _ => true
  | .error _ => false

/-! ## Filesystem model and rename executor (`image_processor.py`) -/

/-- A filesystem snapshot: the existing files, each with an opaque content
identifier (so that overwriting is observable). -/
abbrev FS := List (FsPath × Nat)

/-- `path.exists()` / reading a file: association-list lookup. -/
def fs_lookup : FS → FsPath → Option Nat
  | [], _ => none
  | (k, v) :: rest, p => if k = p then some v else fs_lookup rest p

/-- Remove a path from the snapshot. -/
def fs_remove : FS → FsPath → FS
  | [], _ => []
  | (k, v) :: rest, p =>
    if k = p then fs_remove rest p else (k, v) :: fs_remove rest p

/-- The exceptions `rename_images` can raise: `FileExistsError` from its
own guard, and `FileNotFoundError` from `Path.rename` on a missing
source. -/
inductive RenameError where
  | targetExists (p : FsPath)
  | sourceMissing (p : FsPath)
deriving DecidableEq

/-- `rename_images` (`image_processor.py`): iterate the mappings in
order; in dry-run mode only collect the new paths; otherwise raise
`FileExistsError` when the target exists and differs from the source,
then perform `original.rename(new)` (which raises `FileNotFoundError`
when the source is absent).  The filesystem state is threaded explicitly
and returned together with the outcome, so that the state left behind by
a raised exception is observable. -/
def rename_images (dry_run : Bool) (mappings : List (FsPath × FsPath))
    (fs : FS) : FS × Except RenameError (List FsPath) :=
  match mappings with
  | [] => (fs, Except.ok [])
  | (original, new) :: rest =>
    if dry_run then
      match rename_images dry_run rest fs with
      | (fs', Except.ok ps) => (fs', Except.ok (new :: ps))
      | (fs', Except.error e) => (fs', Except.error e)
    else
      if (fs_lookup fs new).isSome ∧ new ≠ original then
        (fs, Except.error (RenameError.targetExists new))
      else
        match fs_lookup fs original with
        | none => (fs, Except.error (RenameError.sourceMissing original))
        | some v =>
          match rename_images dry_run rest ((new, v) :: fs_remove fs original) with
          | (fs', Except.ok ps) => (fs', Except.ok (new :: ps))
          | (fs', Except.error e) => (fs', Except.error e)

/-! ## Rename planner (`generate_new_names`) -/

/-- Fuel-driven decimal rendering, most significant digit first; the
fuel only forces structural recursion and is set to the number itself. -/
def toDecimalGo : Nat → Nat → List Char
  | _, 0 => []
  | 0, _ + 1 => []
  | fuel + 1, n + 1 =>
    toDecimalGo fuel ((n + 1) / 10) ++ [Nat.digitChar ((n + 1) % 10)]

/-- Decimal rendering of a natural number, most significant digit first
(Python `str(i)` up to the harmless `0 ↦ ""`, which `fmt4` pads away). -/
def toDecimal (n : Nat) : List Char :=
  toDecimalGo n n

/-- Python's `f"{i:04d}"`: the decimal rendering left-padded with zeros
to width at least 4. -/
def fmt4 (i : Nat) : List Char :=
  List.replicate (4 - (toDecimal i).length) '0' ++ toDecimal i

/-- Decimal parsing, used only in proofs to invert `fmt4`. -/
def parseDigits (l : List Char) : Nat :=
  l.foldl (fun acc c => acc * 10 + (c.toNat - 48)) 0

/-- The enumeration loop of `generate_new_names`, carrying the 1-based
counter `i`: each image gets the new name
`f"{dataset_name}_{i:04d}{extension}"` with the lower-cased original
extension, placed in `output_dir` when given and in the original's
parent otherwise. -/
def generate_new_names_aux (dataset_name : String) (output_dir : Option String)
    (i : Nat) : List FsPath → List (FsPath × FsPath)
  | [] => []
  | original_path :: rest =>
    let extension := lowerChars (suffixOf original_path.fname)
    let new_name := dataset_name.data ++ '_' :: (fmt4 i ++ extension)
    let new_dir := output_dir.getD original_path.dir
    (original_path, ⟨new_dir, new_name⟩) ::
      generate_new_names_aux dataset_name output_dir (i + 1) rest

/-- `generate_new_names` (`image_processor.py`): enumerate from 1. -/
def generate_new_names (image_paths : List FsPath) (dataset_name : String)
    (output_dir : Option String := none) : List (FsPath × FsPath) :=
  generate_new_names_aux dataset_name output_dir 1 image_paths

/-! ## Image discovery (`discover_images`) -/

/-- `SUPPORTED_EXTENSIONS` from `image_processor.py`. -/
def SUPPORTED_EXTENSIONS : List (List Char) :=
  [".jpg".data, ".jpeg".data, ".png".data, ".webp".data,
   ".bmp".data, ".gif".data, ".tiff".data, ".tif".data]

/-- One entry returned by `input_dir.glob(pattern)`, in native listing
order: a path plus its `is_file()` status. -/
structure DirEntry where
  path : FsPath
  is_file : Bool
deriving DecidableEq

/-- The filter loop of `discover_images`: keep files whose lower-cased
suffix is supported, preserving the native enumeration order. -/
def supported_files (entries : List DirEntry) : List FsPath :=
  (entries.filter (fun e =>
    e.is_file && decide (lowerChars (suffixOf e.path.fname) ∈ SUPPORTED_EXTENSIONS))).map
    (fun e => e.path)

/-- The sort key of `discover_images`: `p.name.lower()`. -/
def sortKey (p : FsPath) : List Char := lowerChars p.fname

/-- Code-point lexicographic comparison of character lists — the order
Python uses on the string keys. -/
def lexLe : List Char → List Char → Bool
  | [], _ => true
  | _ :: _, [] => false
  | a :: as, b :: bs => if a < b then true else if b < a then false else lexLe as bs

/-- The non-strict key order on paths. -/
abbrev keyLe (a b : FsPath) : Prop := lexLe (sortKey a) (sortKey b) = true

/-- The key order strengthened with key distinctness; antisymmetric even
though distinct paths can share a key. -/
abbrev keyLt (a b : FsPath) : Prop := keyLe a b ∧ sortKey a ≠ sortKey b

/-- Stable insertion of a path into an already sorted list: the new
element goes after every element whose key is less than or equal to its
own, exactly as a stable sort keeps ties in encounter order. -/
def insort (x : FsPath) : List FsPath → List FsPath
  | [] => [x]
  | y :: ys => if lexLe (sortKey y) (sortKey x) then y :: insort x ys else x :: y :: ys

/-- A stable sort by `sortKey`, modelling `list.sort(key=...)` (Python's
sort is stable, so any stable sort denotes the same function). -/
def sort_images (l : List FsPath) : List FsPath :=
  l.foldl (fun acc x => insort x acc) []

/-- `discover_images` (`image_processor.py`) applied to a native
directory listing: filter to supported files, then sort by the
lower-cased filename. -/
def discover_images (entries : List DirEntry) : List FsPath :=
  sort_images (supported_files entries)

/-! ## Concrete sample data used by the witnesses -/

/-- Sample image `a.jpg` in directory `d`. -/
def wA : FsPath := ⟨"d", "a.jpg".data⟩

/-- Sample image `b.jpg` in directory `d`. -/
def wB : FsPath := ⟨"d", "b.jpg".data⟩

/-- Sample unrelated pre-existing file `x.jpg` in directory `d`. -/
def wX : FsPath := ⟨"d", "p_0001.jpg".data⟩

/-- Sample rename target `p_0002.jpg` in directory `d`. -/
def wP : FsPath := ⟨"d", "p_0002.jpg".data⟩

/-- Sample filesystem holding `wA`, `wB` and `wX`. -/
def wFS0 : FS := [(wA, 0), (wB, 1), (wX, 2)]

/-- Five sample images for the batch scenarios. -/
def wImgs : List FsPath :=
  [⟨"d", "i1.jpg".data⟩, ⟨"d", "i2.jpg".data⟩, ⟨"d", "i3.jpg".data⟩,
   ⟨"d", "i4.jpg".data⟩, ⟨"d", "i5.jpg".data⟩]

/-- Sample model oracle that raises exactly on the third image. -/
def wCaptionOf : FsPath → Except String String := fun p =>
  if p = ⟨"d", "i3.jpg".data⟩ then Except.error "boom" else Except.ok "a cat"

/-- Sample write oracle that always succeeds. -/
def wWriteOk : FsPath → Except String Unit := fun _ => Except.ok ()

/-- Directory entry `A.jpg` in directory `d`. -/
def wEntryA : DirEntry := ⟨⟨"d", "A.jpg".data⟩, true⟩

/-- Directory entry `a.JPG` in directory `d`: a distinct file whose
lower-cased name collides with `A.jpg`. -/
def wEntryB : DirEntry := ⟨⟨"d", "a.JPG".data⟩, true⟩

/-- Directory entry `B.png` in directory `d`. -/
def wEntryC : DirEntry := ⟨⟨"d", "B.png".data⟩, true⟩

/-- Sample rename target `p_0003.jpg` in directory `d`. -/
def wQ : FsPath := ⟨"d", "p_0003.jpg".data⟩

/-! ## Theorems -/

/-- C5: for every model output, model family and non-empty trigger word,
`caption_image` returns exactly
`"{triggerWord}, {normalizedCaption}"`, where the normalized caption is
the result of the same call without a trigger word; in particular the
result starts with `"{triggerWord}, "`. -/
theorem caption_trigger_word_format (florenceResult blipResult model_type t : String)
    (h : t ≠ "") :
    caption_image florenceResult blipResult model_type (some t) =
      t ++ ", " ++ caption_image florenceResult blipResult model_type none ∧
    ∃ rest, caption_image florenceResult blipResult model_type (some t) =
      (t ++ ", ") ++ rest := by
  refine ⟨by simp [caption_image, h], select_model_caption florenceResult blipResult model_type, ?_⟩
  have : (t ++ ", ") ++ select_model_caption florenceResult blipResult model_type =
      t ++ (", " ++ select_model_caption florenceResult blipResult model_type) := by
    apply congrArg String.mk
    show ((t ++ ", ").data ++ _) = (t.data ++ _)
    simp
  simp [caption_image, h, this]

/-- Witness for C5 at the trigger word `sks` over the florence branch. -/
theorem caption_trigger_word_format_witness :
    caption_image "a cat" "a dog" "florence" (some "sks") =
      "sks" ++ ", " ++ caption_image "a cat" "a dog" "florence" none ∧
    ∃ rest, caption_image "a cat" "a dog" "florence" (some "sks") =
      ("sks" ++ ", ") ++ rest :=
  caption_trigger_word_format "a cat" "a dog" "florence" "sks" (by decide)

/-- C10: with an absent or empty trigger word, `caption_image` returns
the selected model branch's normalized caption unchanged, with no
separator prepended. -/
theorem caption_empty_trigger (florenceResult blipResult model_type : String) :
    caption_image florenceResult blipResult model_type none =
      select_model_caption florenceResult blipResult model_type ∧
    caption_image florenceResult blipResult model_type (some "") =
      select_model_caption florenceResult blipResult model_type :=
  ⟨rfl, rfl⟩

/-- Counterexample to C6: there is no injective assignment of style
submode tags to instruction strings realized by the Florence instruction
selector; the selector's style entry is one fixed string, so no
sub-selection table keyed by `tags | natural | mixed` exists in the
code. -/
theorem florence_no_submode_table :
    ¬ ∃ f : StyleSubmode → String, Function.Injective f ∧
      ∀ s : StyleSubmode, f s = get_florence_instruction LoRAType.style := by
  rintro ⟨f, hinj, hall⟩
  have h : f StyleSubmode.tags = f StyleSubmode.natural :=
    (hall StyleSubmode.tags).trans (hall StyleSubmode.natural).symm
  exact absurd (hinj h) (by decide)

/-- Looking up a key in a snapshot after removing a path. -/
theorem fs_lookup_remove (fs : FS) (p q : FsPath) :
    fs_lookup (fs_remove fs p) q = if q = p then none else fs_lookup fs q := by
  induction fs with
  | nil => simp [fs_remove, fs_lookup]
  | cons kv rest ih =>
    obtain ⟨k, v⟩ := kv
    simp only [fs_remove, fs_lookup]
    by_cases hk : k = p
    · simp only [if_pos hk, ih]
      by_cases hq : q = p
      · simp [hq]
      · have hkq : k ≠ q := by
          intro h
          exact hq (h.symm.trans hk)
        simp [hq, hkq, fs_lookup]
    · simp only [if_neg hk, fs_lookup, ih]
      by_cases hkq : k = q
      · have hq : ¬q = p := by
          intro h
          exact hk (hkq.trans h)
        simp [hkq, hq]
      · by_cases hq : q = p <;> simp [hq, hkq, hk]

/-- `rename_images` in dry-run mode returns the snapshot untouched and
collects every planned new path in order. -/
theorem rename_dry_run_eq (mappings : List (FsPath × FsPath)) (fs : FS) :
    rename_images true mappings fs = (fs, Except.ok (mappings.map Prod.snd)) := by
  induction mappings with
  | nil => rfl
  | cons hd tl ih =>
    obtain ⟨o, n⟩ := hd
    simp [rename_images, ih]

/-- Splitting a `rename_images` run at a list decomposition: the run on
`pre ++ rest` is the run on `pre` followed, on success, by the run on
`rest` from the intermediate snapshot. -/
theorem rename_images_append (d : Bool) (pre rest : List (FsPath × FsPath)) (fs : FS) :
    rename_images d (pre ++ rest) fs =
      (match rename_images d pre fs with
       | (fs₁, Except.ok ps₁) =>
         (match rename_images d rest fs₁ with
          | (fs', Except.ok ps) => (fs', Except.ok (ps₁ ++ ps))
          | (fs', Except.error e) => (fs', Except.error e))
       | (fs₁, Except.error e) => (fs₁, Except.error e)) := by
  cases d with
  | true =>
    rw [rename_dry_run_eq (pre ++ rest) fs, rename_dry_run_eq pre fs]
    simp [rename_dry_run_eq rest fs]
  | false =>
    induction pre generalizing fs with
    | nil =>
      simp only [List.nil_append]
      rcases h : rename_images false rest fs with ⟨fs', r⟩
      cases r <;> simp [rename_images, h]
    | cons hd tl ih =>
      obtain ⟨o, n⟩ := hd
      simp only [List.cons_append, rename_images, Bool.false_eq_true, if_false,
        List.append_eq]
      by_cases hc : (fs_lookup fs n).isSome ∧ n ≠ o
      · simp [hc]
      · simp only [if_neg hc]
        rcases ho : fs_lookup fs o with _ | v
        · simp
        · simp only [ih]
          rcases h1 : rename_images false tl ((n, v) :: fs_remove fs o) with ⟨fs₁, r₁⟩
          cases r₁ with
          | error e => simp [h1]
          | ok ps₁ =>
            rcases h2 : rename_images false rest fs₁ with ⟨fs', r₂⟩
            cases r₂ <;> simp [h1, h2]

/-- The success run of `rename_images` on a well-formed plan: distinct
originals, distinct targets, all originals present, no target present.
The run succeeds, returns the targets in order, leaves every original
absent, and never materializes a path that was absent and untargeted. -/
theorem rename_success_aux (mappings : List (FsPath × FsPath)) (fs : FS)
    (hof : (mappings.map Prod.fst).Nodup) (hns : (mappings.map Prod.snd).Nodup)
    (hoe : ∀ o ∈ mappings.map Prod.fst, (fs_lookup fs o).isSome)
    (hna : ∀ n ∈ mappings.map Prod.snd, fs_lookup fs n = none) :
    ∃ fs', rename_images false mappings fs = (fs', Except.ok (mappings.map Prod.snd)) ∧
      (∀ o ∈ mappings.map Prod.fst, fs_lookup fs' o = none) ∧
      (∀ p, fs_lookup fs p = none → p ∉ mappings.map Prod.snd → fs_lookup fs' p = none) := by
  induction mappings generalizing fs with
  | nil => exact ⟨fs, rfl, by simp, fun p hp _ => hp⟩
  | cons hd tl ih =>
    obtain ⟨o, n⟩ := hd
    simp only [List.map_cons, List.nodup_cons] at hof hns
    have hn_abs : fs_lookup fs n = none := hna n (by simp)
    obtain ⟨v, hv⟩ : ∃ v, fs_lookup fs o = some v := by
      have := hoe o (by simp)
      rcases h : fs_lookup fs o with _ | v
      · rw [h] at this; simp at this
      · exact ⟨v, rfl⟩
    have hon : o ≠ n := by
      intro h; rw [h, hn_abs] at hv; exact Option.noConfusion hv
    have hcond : ¬((fs_lookup fs n).isSome ∧ n ≠ o) := by
      rw [hn_abs]; simp
    -- the snapshot after this rename
    set fs₂ : FS := (n, v) :: fs_remove fs o with hfs₂
    have step₂ : ∀ q : FsPath, fs_lookup fs₂ q =
        if n = q then some v else if q = o then none else fs_lookup fs q := by
      intro q
      simp only [hfs₂, fs_lookup, fs_lookup_remove]
    have hoe' : ∀ o' ∈ tl.map Prod.fst, (fs_lookup fs₂ o').isSome := by
      intro o' ho'
      rw [step₂ o']
      by_cases h1 : n = o'
      · simp [h1]
      · have ho'o : o' ≠ o := fun h => hof.1 (h ▸ ho')
        simp [h1, ho'o, hoe o' (by simp [ho'])]
    have hna' : ∀ n' ∈ tl.map Prod.snd, fs_lookup fs₂ n' = none := by
      intro n' hn'
      rw [step₂ n']
      have hnn' : n ≠ n' := fun h => hns.1 (h ▸ hn')
      have hno : n ≠ o := Ne.symm hon
      by_cases h1 : n' = o
      · simp [hnn', h1, hno]
      · simp [hnn', h1, hna n' (by simp [hn'])]
    obtain ⟨fs', heq, hfst, hframe⟩ := ih fs₂ hof.2 hns.2 hoe' hna'
    refine ⟨fs', ?_, ?_, ?_⟩
    · simp only [rename_images, Bool.false_eq_true, if_false, if_neg hcond, hv, heq,
        List.map_cons]
    · intro o' ho'
      rcases List.mem_cons.mp ho' with h | h
      · subst h
        apply hframe
        · rw [step₂ o']
          simp [Ne.symm hon]
        · intro hmem
          rw [hna o' (by simp [hmem])] at hv
          exact Option.noConfusion hv
      · exact hfst o' h
    · intro p hp hpn
      have hpn' : p ∉ tl.map Prod.snd := fun h => hpn (by simp [h])
      have hpne : n ≠ p := fun h => hpn (by simp [h])
      apply hframe
      · rw [step₂ p]
        by_cases h1 : p = o
        · simp [hpne, h1, Ne.symm hon]
        · simp [hpne, h1, hp]
      · exact hpn'

/-- C1: the batch driver yields exactly one result per input image in
input order; an image whose model invocation raises is recorded with the
`ERROR:` marker holding the exception text while every other image is
still processed; and the caption-file loop of the CLI writes one file
per image whose invocation (and file write) succeeded, at the image's
path with the `.txt` extension. -/
theorem batch_driver_error_isolation (captionOf : FsPath → Except String String)
    (writeRes : FsPath → Except String Unit) :
    (∀ images, (caption_batch captionOf images).map Prod.fst = images) ∧
    (∀ (pre post : List FsPath) (p : FsPath) (e : String),
      captionOf p = Except.error e →
      caption_batch captionOf (pre ++ p :: post) =
        caption_batch captionOf pre ++ (p, "ERROR: " ++ e) :: caption_batch captionOf post) ∧
    (∀ images, ((cli_caption_loop captionOf writeRes images).1).map Prod.fst =
      (images.filter (fun q => exceptOk (captionOf q) &&
        exceptOk (writeRes (withSuffixTxt q)))).map withSuffixTxt) := by
  refine ⟨?_, ?_, ?_⟩
  · intro images
    induction images with
    | nil => rfl
    | cons p rest ih =>
      rcases h : captionOf p with e | c <;> simp [caption_batch, h, ih]
  · intro pre post p e he
    induction pre with
    | nil => simp [caption_batch, he]
    | cons q qre ih => simp [caption_batch, ih]
  · intro images
    induction images with
    | nil => rfl
    | cons p rest ih =>
      rcases hc : captionOf p with e | c
      · simp [cli_caption_loop, hc, exceptOk, ih]
      · rcases hw : writeRes (withSuffixTxt p) with e | u <;>
          simp [cli_caption_loop, hc, hw, exceptOk, ih]

/-- Witness for C1: the five-image batch whose third invocation raises
`boom` — five results in order with the third marked `ERROR: boom`, and
exactly four caption files written. -/
theorem batch_driver_error_isolation_witness :
    caption_batch wCaptionOf wImgs =
      [(⟨"d", "i1.jpg".data⟩, "a cat"), (⟨"d", "i2.jpg".data⟩, "a cat"),
       (⟨"d", "i3.jpg".data⟩, "ERROR: boom"), (⟨"d", "i4.jpg".data⟩, "a cat"),
       (⟨"d", "i5.jpg".data⟩, "a cat")] ∧
    ((cli_caption_loop wCaptionOf wWriteOk wImgs).1).map Prod.fst =
      [⟨"d", "i1.txt".data⟩, ⟨"d", "i2.txt".data⟩,
       ⟨"d", "i4.txt".data⟩, ⟨"d", "i5.txt".data⟩] ∧
    ((cli_caption_loop wCaptionOf wWriteOk wImgs).1).length = 4 := by
  refine ⟨?_, ?_, rfl⟩
  · have h := (batch_driver_error_isolation wCaptionOf wWriteOk).2.1
      [⟨"d", "i1.jpg".data⟩, ⟨"d", "i2.jpg".data⟩]
      [⟨"d", "i4.jpg".data⟩, ⟨"d", "i5.jpg".data⟩]
      ⟨"d", "i3.jpg".data⟩ "boom" rfl
    exact h.trans (by rfl)
  · have h := (batch_driver_error_isolation wCaptionOf wWriteOk).2.2 wImgs
    exact h.trans (by rfl)

/-- Length of the rename plan. -/
theorem generate_new_names_aux_length (dataset_name : String)
    (output_dir : Option String) (k : Nat) (l : List FsPath) :
    (generate_new_names_aux dataset_name output_dir k l).length = l.length := by
  induction l generalizing k with
  | nil => rfl
  | cons p rest ih => simp [generate_new_names_aux, ih]

/-- Entrywise description of the planner loop, for an arbitrary starting
counter. -/
theorem generate_new_names_aux_get (dataset_name : String)
    (output_dir : Option String) (l : List FsPath) (k i : Nat)
    (h : i < l.length)
    (h2 : i < (generate_new_names_aux dataset_name output_dir k l).length) :
    (generate_new_names_aux dataset_name output_dir k l).get ⟨i, h2⟩ =
      (l.get ⟨i, h⟩,
       ⟨output_dir.getD (l.get ⟨i, h⟩).dir,
        dataset_name.data ++ '_' ::
          (fmt4 (k + i) ++ lowerChars (suffixOf (l.get ⟨i, h⟩).fname))⟩) := by
  induction l generalizing k i with
  | nil => exact absurd h (by simp)
  | cons p rest ih =>
    cases i with
    | zero => simp [generate_new_names_aux]
    | succ i =>
      have h' : i < rest.length := Nat.lt_of_succ_lt_succ h
      have h2' : i < (generate_new_names_aux dataset_name output_dir (k + 1) rest).length := by
        rw [generate_new_names_aux_length]; exact h'
      have := ih (k + 1) i h' h2'
      simp only [generate_new_names_aux, List.get_cons_succ, this]
      have harith : k + 1 + i = k + (i + 1) := by omega
      rw [harith]

/-- C3: the rename planner returns one mapping per image, and the
mapping at 0-based position `i` sends the image to
`outputDir (or the original's parent) / "{datasetName}_{i+1:04d}{ext}"`
with the lower-cased original extension. -/
theorem plan_formula (images : List FsPath) (dataset_name : String)
    (output_dir : Option String) :
    (generate_new_names images dataset_name output_dir).length = images.length ∧
    ∀ i (h : i < images.length)
      (h2 : i < (generate_new_names images dataset_name output_dir).length),
      (generate_new_names images dataset_name output_dir).get ⟨i, h2⟩ =
        (images.get ⟨i, h⟩,
         ⟨output_dir.getD (images.get ⟨i, h⟩).dir,
          dataset_name.data ++ '_' ::
            (fmt4 (i + 1) ++ lowerChars (suffixOf (images.get ⟨i, h⟩).fname))⟩) := by
  refine ⟨generate_new_names_aux_length dataset_name output_dir 1 images, ?_⟩
  intro i h h2
  have := generate_new_names_aux_get dataset_name output_dir images 1 i h h2
  rwa [Nat.add_comm 1 i] at this

/-- Witness for C3: the specification's scenario — `a.JPG, B.png, c.webp`
with dataset name `shoot`. -/
theorem plan_formula_witness :
    (generate_new_names
      [⟨"d", "a.JPG".data⟩, ⟨"d", "B.png".data⟩, ⟨"d", "c.webp".data⟩]
      "shoot" none).length = 3 ∧
    (generate_new_names
      [⟨"d", "a.JPG".data⟩, ⟨"d", "B.png".data⟩, ⟨"d", "c.webp".data⟩]
      "shoot" none).get ⟨1, by decide⟩ =
      (⟨"d", "B.png".data⟩, ⟨"d", "shoot_0002.png".data⟩) := by
  constructor
  · exact (plan_formula
      [⟨"d", "a.JPG".data⟩, ⟨"d", "B.png".data⟩, ⟨"d", "c.webp".data⟩]
      "shoot" none).1.trans (by rfl)
  · have h := (plan_formula
      [⟨"d", "a.JPG".data⟩, ⟨"d", "B.png".data⟩, ⟨"d", "c.webp".data⟩]
      "shoot" none).2 1 (by decide) (by decide)
    exact h.trans (by rfl)

/-- The fuel-driven rendering agrees with the little-endian
`Nat.digits` rendering whenever the fuel dominates the number. -/
theorem toDecimalGo_eq (fuel : Nat) : ∀ n : Nat, n ≤ fuel →
    toDecimalGo fuel n = ((Nat.digits 10 n).map Nat.digitChar).reverse := by
  induction fuel with
  | zero =>
    intro n h
    have hn : n = 0 := Nat.le_zero.mp h
    subst hn
    simp [toDecimalGo]
  | succ f ih =>
    intro n h
    match n with
    | 0 => simp [toDecimalGo]
    | m + 1 =>
      have hlt : (m + 1) / 10 < m + 1 := Nat.div_lt_self (Nat.succ_pos m) (by norm_num)
      have hle : (m + 1) / 10 ≤ f := by omega
      rw [toDecimalGo, ih ((m + 1) / 10) hle,
        Nat.digits_def' (by norm_num : (1 : ℕ) < 10) (Nat.succ_pos m)]
      simp

/-- Leading zeros do not change the parsed value. -/
theorem parseDigits_append_zeros (k : Nat) (s : List Char) :
    parseDigits (List.replicate k '0' ++ s) = parseDigits s := by
  induction k with
  | zero => simp
  | succ k ih =>
    simp only [List.replicate_succ, List.cons_append, parseDigits, List.foldl_cons]
    have h0 : (0 : Nat) * 10 + ('0'.toNat - 48) = 0 := by decide
    rw [h0]
    exact ih

/-- Folding decimal characters recovers `Nat.ofDigits` on the digit
list. -/
theorem foldr_digitChar_ofDigits (l : List Nat) (h : ∀ d ∈ l, d < 10) :
    l.foldr (fun d acc => acc * 10 + ((Nat.digitChar d).toNat - 48)) 0 =
      Nat.ofDigits 10 l := by
  induction l with
  | nil => simp [Nat.ofDigits_nil]
  | cons d t ih =>
    have hd : d < 10 := h d (List.mem_cons_self d t)
    have hall : ∀ x : Nat, x < 10 → (Nat.digitChar x).toNat - 48 = x := by decide
    have hv : (Nat.digitChar d).toNat - 48 = d := hall d hd
    rw [List.foldr_cons, Nat.ofDigits_cons,
      ih (fun x hx => h x (List.mem_cons_of_mem d hx)), hv]
    omega

/-- Parsing inverts the decimal rendering. -/
theorem parseDigits_toDecimal (n : Nat) : parseDigits (toDecimal n) = n := by
  rw [toDecimal, toDecimalGo_eq n n le_rfl, parseDigits, List.foldl_reverse,
    List.foldr_map,
    foldr_digitChar_ofDigits (Nat.digits 10 n)
      (fun d hd => Nat.digits_lt_base (by norm_num) hd),
    Nat.ofDigits_digits]

/-- Parsing inverts the width-4 zero-padded rendering. -/
theorem parseDigits_fmt4 (i : Nat) : parseDigits (fmt4 i) = i := by
  rw [fmt4, parseDigits_append_zeros, parseDigits_toDecimal]

/-- The zero-padded rendering is injective. -/
theorem fmt4_inj {i j : Nat} (h : fmt4 i = fmt4 j) : i = j := by
  have h2 := congrArg parseDigits h
  rwa [parseDigits_fmt4, parseDigits_fmt4] at h2

/-- Every character of the decimal rendering is a digit. -/
theorem toDecimal_digits (n : Nat) : ∀ c ∈ toDecimal n, c.isDigit := by
  rw [toDecimal, toDecimalGo_eq n n le_rfl]
  intro c hc
  simp only [List.mem_reverse, List.mem_map] at hc
  obtain ⟨d, hd, rfl⟩ := hc
  have h10 : d < 10 := Nat.digits_lt_base (by norm_num) hd
  have hall : ∀ d : Nat, d < 10 → (Nat.digitChar d).isDigit := by decide
  exact hall d h10

/-- Every character of the zero-padded rendering is a digit. -/
theorem fmt4_digits (i : Nat) : ∀ c ∈ fmt4 i, c.isDigit := by
  intro c hc
  rcases List.mem_append.mp hc with h | h
  · rw [List.eq_of_mem_replicate h]; decide
  · exact toDecimal_digits i c h

/-- A lower-cased extension never starts with a digit: it is empty or
starts with a dot. -/
theorem ext_head_not_digit (name : List Char) :
    ∀ c, (lowerChars (suffixOf name)).head? = some c → c.isDigit = false := by
  intro c hc
  simp only [suffixOf] at hc
  split at hc
  · simp only [lowerChars, List.map_cons, List.head?_cons, Option.some.injEq] at hc
    rw [← hc]
    decide
  · simp [lowerChars] at hc

/-- Two concatenations of a digit run with a non-digit-headed tail can
only agree when the runs agree. -/
theorem digit_run_split {l₁ : List Char} : ∀ {l₂ r₁ r₂ : List Char},
    (∀ c ∈ l₁, c.isDigit) → (∀ c ∈ l₂, c.isDigit) →
    (∀ c, r₁.head? = some c → c.isDigit = false) →
    (∀ c, r₂.head? = some c → c.isDigit = false) →
    l₁ ++ r₁ = l₂ ++ r₂ → l₁ = l₂ := by
  induction l₁ with
  | nil =>
    intro l₂ r₁ r₂ h₁ h₂ g₁ g₂ e
    cases l₂ with
    | nil => rfl
    | cons b t₂ =>
      exfalso
      simp only [List.nil_append, List.cons_append] at e
      have hb := g₁ b (by rw [e]; rfl)
      have hb' := h₂ b (by simp)
      rw [hb] at hb'
      exact Bool.noConfusion hb'
  | cons a t₁ ih =>
    intro l₂ r₁ r₂ h₁ h₂ g₁ g₂ e
    cases l₂ with
    | nil =>
      exfalso
      simp only [List.cons_append, List.nil_append] at e
      have hb := g₂ a (by rw [← e]; rfl)
      have hb' := h₁ a (by simp)
      rw [hb] at hb'
      exact Bool.noConfusion hb'
    | cons b t₂ =>
      simp only [List.cons_append, List.cons.injEq] at e
      obtain ⟨rfl, e2⟩ := e
      rw [ih (fun c hc => h₁ c (by simp [hc])) (fun c hc => h₂ c (by simp [hc]))
        g₁ g₂ e2]

/-- C7: in every rename plan, the new name at 0-based position `i`
embeds the contiguous 1-based sequence number `i+1`, and no two mappings
share a new path — the naming scheme is injective over positions. -/
theorem plan_targets_distinct (images : List FsPath) (dataset_name : String)
    (output_dir : Option String) :
    (∀ i (h : i < images.length)
      (h2 : i < (generate_new_names images dataset_name output_dir).length),
      ((generate_new_names images dataset_name output_dir).get ⟨i, h2⟩).2.fname =
        dataset_name.data ++ '_' ::
          (fmt4 (i + 1) ++ lowerChars (suffixOf (images.get ⟨i, h⟩).fname))) ∧
    (∀ i j (hi : i < images.length) (hj : j < images.length)
      (hi2 : i < (generate_new_names images dataset_name output_dir).length)
      (hj2 : j < (generate_new_names images dataset_name output_dir).length),
      i ≠ j →
      ((generate_new_names images dataset_name output_dir).get ⟨i, hi2⟩).2 ≠
        ((generate_new_names images dataset_name output_dir).get ⟨j, hj2⟩).2) := by
  have hfname : ∀ i (h : i < images.length)
      (h2 : i < (generate_new_names images dataset_name output_dir).length),
      ((generate_new_names images dataset_name output_dir).get ⟨i, h2⟩).2.fname =
        dataset_name.data ++ '_' ::
          (fmt4 (i + 1) ++ lowerChars (suffixOf (images.get ⟨i, h⟩).fname)) := by
    intro i h h2
    have hg := generate_new_names_aux_get dataset_name output_dir images 1 i h h2
    rw [Nat.add_comm 1 i] at hg
    exact congrArg (fun q : FsPath × FsPath => q.2.fname) hg
  refine ⟨hfname, ?_⟩
  intro i j hi hj hi2 hj2 hne heq
  have h1 := hfname i hi hi2
  have h2 := hfname j hj hj2
  have hfe := congrArg FsPath.fname heq
  rw [h1, h2] at hfe
  have h3 := List.append_cancel_left hfe
  injection h3 with _ h4
  have h5 : fmt4 (i + 1) = fmt4 (j + 1) :=
    digit_run_split (fmt4_digits (i + 1)) (fmt4_digits (j + 1))
      (ext_head_not_digit (images.get ⟨i, hi⟩).fname)
      (ext_head_not_digit (images.get ⟨j, hj⟩).fname) h4
  have h6 := fmt4_inj h5
  omega

/-- Witness for C7: on a two-image plan the two targets differ. -/
theorem plan_targets_distinct_witness :
    ((generate_new_names [wA, wB] "ds" none).get ⟨0, by decide⟩).2 ≠
      ((generate_new_names [wA, wB] "ds" none).get ⟨1, by decide⟩).2 :=
  (plan_targets_distinct [wA, wB] "ds" none).2 0 1 (by decide) (by decide)
    (by decide) (by decide) (by decide)

/-- C2: applying a rename plan (non-dry-run) raises the target-exists
error at the first mapping whose target is present and differs from its
own original: the renames already applied are retained, the colliding
file is left untouched, and the remaining mappings are not executed.  A
mapping whose target equals its own original passes the guard and the
run continues (idempotent re-run). -/
theorem rename_collision_abort (fs fs₁ : FS) (pre post : List (FsPath × FsPath))
    (o n : FsPath) (ps₁ : List FsPath) (v : Nat) :
    (rename_images false pre fs = (fs₁, Except.ok ps₁) →
      (fs_lookup fs₁ n).isSome → n ≠ o →
      rename_images false (pre ++ (o, n) :: post) fs =
        (fs₁, Except.error (RenameError.targetExists n))) ∧
    (rename_images false pre fs = (fs₁, Except.ok ps₁) →
      fs_lookup fs₁ o = some v →
      rename_images false (pre ++ (o, o) :: post) fs =
        (match rename_images false post ((o, v) :: fs_remove fs₁ o) with
         | (fs', Except.ok ps) => (fs', Except.ok (ps₁ ++ o :: ps))
         | (fs', Except.error e) => (fs', Except.error e))) := by
  constructor
  · intro h hsome hne
    rw [rename_images_append, h]
    have hhead : rename_images false ((o, n) :: post) fs₁ =
        (fs₁, Except.error (RenameError.targetExists n)) := by
      simp [rename_images, hsome, hne]
    simp [hhead]
  · intro h hv
    rw [rename_images_append, h]
    have hhead : rename_images false ((o, o) :: post) fs₁ =
        (match rename_images false post ((o, v) :: fs_remove fs₁ o) with
         | (fs', Except.ok ps) => (fs', Except.ok (o :: ps))
         | (fs', Except.error e) => (fs', Except.error e)) := by
      simp [rename_images, hv]
    simp only [hhead]
    rcases h2 : rename_images false post ((o, v) :: fs_remove fs₁ o) with ⟨fs', r⟩
    cases r <;> simp [h2]

/-- Witness for C2: renaming `a.jpg → p_0002.jpg` succeeds, then the
mapping `b.jpg → p_0001.jpg` hits the pre-existing `p_0001.jpg` and the
run stops with the target-exists error, the first rename being retained;
and an identity mapping on the existing `p_0001.jpg` is permitted. -/
theorem rename_collision_abort_witness :
    rename_images false [(wA, wP), (wB, wX)] wFS0 =
      ([(wP, 0), (wB, 1), (wX, 2)], Except.error (RenameError.targetExists wX)) ∧
    rename_images false [(wX, wX)] wFS0 =
      ([(wX, 2), (wA, 0), (wB, 1)], Except.ok [wX]) := by
  constructor
  · exact (rename_collision_abort wFS0 [(wP, 0), (wB, 1), (wX, 2)] [(wA, wP)] []
      wB wX [wP] 0).1 rfl rfl (by decide)
  · have h := (rename_collision_abort wFS0 wFS0 [] [] wX wX [] 2).2 rfl rfl
    exact h.trans (by rfl)

/-- C8: in dry-run mode `rename_images` performs no filesystem mutation
and still returns the full ordered list of planned targets; in real mode,
on a well-formed plan (distinct originals and targets) whose originals
exist and none of whose targets pre-exist, it succeeds, returns the
targets in order, and afterwards every original is inaccessible at its
old path. -/
theorem rename_apply_contract (mappings : List (FsPath × FsPath)) (fs : FS) :
    (rename_images true mappings fs = (fs, Except.ok (mappings.map Prod.snd))) ∧
    ((mappings.map Prod.fst).Nodup → (mappings.map Prod.snd).Nodup →
     (∀ o ∈ mappings.map Prod.fst, (fs_lookup fs o).isSome) →
     (∀ n ∈ mappings.map Prod.snd, fs_lookup fs n = none) →
     ∃ fs', rename_images false mappings fs = (fs', Except.ok (mappings.map Prod.snd)) ∧
       ∀ o ∈ mappings.map Prod.fst, fs_lookup fs' o = none) := by
  refine ⟨rename_dry_run_eq mappings fs, fun h1 h2 h3 h4 => ?_⟩
  obtain ⟨fs', heq, hfst, _⟩ := rename_success_aux mappings fs h1 h2 h3 h4
  exact ⟨fs', heq, hfst⟩

/-- Witness for C8: the two-mapping plan `a.jpg → p_0002.jpg`,
`b.jpg → p_0003.jpg` on the sample filesystem. -/
theorem rename_apply_contract_witness :
    (rename_images true [(wA, wP), (wB, wQ)] wFS0 =
      (wFS0, Except.ok ([(wA, wP), (wB, wQ)].map Prod.snd))) ∧
    (∃ fs', rename_images false [(wA, wP), (wB, wQ)] wFS0 =
        (fs', Except.ok ([(wA, wP), (wB, wQ)].map Prod.snd)) ∧
      ∀ o ∈ [(wA, wP), (wB, wQ)].map Prod.fst, fs_lookup fs' o = none) :=
  ⟨(rename_apply_contract [(wA, wP), (wB, wQ)] wFS0).1,
   (rename_apply_contract [(wA, wP), (wB, wQ)] wFS0).2
     (by decide) (by decide) (by decide) (by decide)⟩

/-- C9 (implicit): the collision check lives only in the non-dry-run
branch — on a plan whose first mapping targets an existing unrelated
file, the dry run completes and reports every planned path, while the
same call without dry-run raises the target-exists error. -/
theorem dry_run_skips_collision_check (fs : FS) (o n : FsPath)
    (rest : List (FsPath × FsPath)) (hsome : (fs_lookup fs n).isSome) (hne : n ≠ o) :
    rename_images true ((o, n) :: rest) fs =
      (fs, Except.ok (n :: rest.map Prod.snd)) ∧
    rename_images false ((o, n) :: rest) fs =
      (fs, Except.error (RenameError.targetExists n)) := by
  constructor
  · simpa using rename_dry_run_eq ((o, n) :: rest) fs
  · simp [rename_images, hsome, hne]

/-- Witness for C9: mapping `b.jpg → p_0001.jpg` collides with the
existing `p_0001.jpg`; dry run reports both planned paths, real mode
raises. -/
theorem dry_run_skips_collision_check_witness :
    rename_images true [(wB, wX), (wA, wP)] wFS0 =
      (wFS0, Except.ok [wX, wP]) ∧
    rename_images false [(wB, wX), (wA, wP)] wFS0 =
      (wFS0, Except.error (RenameError.targetExists wX)) := by
  have h := dry_run_skips_collision_check wFS0 wB wX [(wA, wP)] (by decide) (by decide)
  exact ⟨h.1.trans (by rfl), h.2⟩

/-- C6 as amended: the Florence instruction selector is keyed by the
LoRA type alone — one fixed structured task tag per type, the three tags
pairwise distinct — with no style-submode sub-selection. -/
theorem florence_instruction_by_loratype_only :
    (∀ t : LoRAType, get_florence_instruction t = FLORENCE_INSTRUCTIONS t) ∧
    get_florence_instruction LoRAType.character = "<MORE_DETAILED_CAPTION>" ∧
    get_florence_instruction LoRAType.style = "<GENERATE_TAGS>" ∧
    get_florence_instruction LoRAType.concept = "<DETAILED_CAPTION>" ∧
    get_florence_instruction LoRAType.character ≠ get_florence_instruction LoRAType.style ∧
    get_florence_instruction LoRAType.style ≠ get_florence_instruction LoRAType.concept ∧
    get_florence_instruction LoRAType.character ≠ get_florence_instruction LoRAType.concept :=
  ⟨fun _ => rfl, rfl, rfl, rfl, by decide, by decide, by decide⟩

/-- `lexLe` is total. -/
theorem lexLe_total (a : List Char) : ∀ b : List Char,
    lexLe a b = true ∨ lexLe b a = true := by
  induction a with
  | nil => intro b; left; rfl
  | cons x xs ih =>
    intro b
    cases b with
    | nil => right; rfl
    | cons y ys =>
      rcases lt_trichotomy x y with h | h | h
      · left; simp [lexLe, h]
      · subst h
        rcases ih ys with h2 | h2
        · left; simp [lexLe, lt_irrefl, h2]
        · right; simp [lexLe, lt_irrefl, h2]
      · right; simp [lexLe, h]

/-- `lexLe` is transitive. -/
theorem lexLe_trans (a : List Char) : ∀ b c : List Char,
    lexLe a b = true → lexLe b c = true → lexLe a c = true := by
  induction a with
  | nil => intro b c _ _; rfl
  | cons x xs ih =>
    intro b c hab hbc
    cases b with
    | nil => simp [lexLe] at hab
    | cons y ys =>
      cases c with
      | nil => simp [lexLe] at hbc
      | cons z zs =>
        rcases lt_trichotomy x y with h1 | h1 | h1
        · rcases lt_trichotomy y z with h2 | h2 | h2
          · simp [lexLe, lt_trans h1 h2]
          · subst h2; simp [lexLe, h1]
          · simp [lexLe, asymm h2, h2] at hbc
        · subst h1
          rcases lt_trichotomy x z with h2 | h2 | h2
          · simp [lexLe, h2]
          · subst h2
            simp only [lexLe, lt_irrefl, if_false] at hab hbc ⊢
            exact ih ys zs hab hbc
          · simp [lexLe, asymm h2, h2] at hbc
        · simp [lexLe, asymm h1, h1] at hab

/-- `lexLe` is antisymmetric. -/
theorem lexLe_antisymm (a : List Char) : ∀ b : List Char,
    lexLe a b = true → lexLe b a = true → a = b := by
  induction a with
  | nil =>
    intro b hab hba
    cases b with
    | nil => rfl
    | cons y ys => simp [lexLe] at hba
  | cons x xs ih =>
    intro b hab hba
    cases b with
    | nil => simp [lexLe] at hab
    | cons y ys =>
      rcases lt_trichotomy x y with h1 | h1 | h1
      · simp [lexLe, asymm h1, h1] at hba
      · subst h1
        simp only [lexLe, lt_irrefl, if_false] at hab hba
        rw [ih ys hab hba]
      · simp [lexLe, asymm h1, h1] at hab

instance : IsAntisymm FsPath keyLt :=
  ⟨fun _ _ hab hba =>
    absurd (lexLe_antisymm _ _ hab.1 hba.1) hab.2⟩

/-- Inserting keeps the list a permutation of the cons. -/
theorem insort_perm (x : FsPath) (l : List FsPath) : (insort x l).Perm (x :: l) := by
  induction l with
  | nil => exact List.Perm.refl _
  | cons y ys ih =>
    by_cases h : lexLe (sortKey y) (sortKey x) = true
    · rw [insort, if_pos h]
      exact (ih.cons y).trans (List.Perm.swap x y ys)
    · rw [insort, if_neg h]

/-- The fold underlying `sort_images` permutes its input. -/
theorem sort_images_aux_perm (l : List FsPath) : ∀ acc : List FsPath,
    (l.foldl (fun a x => insort x a) acc).Perm (acc ++ l) := by
  induction l with
  | nil => intro acc; simp
  | cons x t ih =>
    intro acc
    have h1 : (t.foldl (fun a x => insort x a) (insort x acc)).Perm (insort x acc ++ t) :=
      ih (insort x acc)
    have h2 : (insort x acc ++ t).Perm ((x :: acc) ++ t) :=
      (insort_perm x acc).append_right t
    have h3 : ((x :: acc) ++ t).Perm (acc ++ x :: t) := List.perm_middle.symm
    exact (h1.trans h2).trans h3

/-- `sort_images` permutes its input. -/
theorem sort_images_perm (l : List FsPath) : (sort_images l).Perm l := by
  simpa using sort_images_aux_perm l []

/-- Inserting preserves sortedness. -/
theorem insort_sorted (x : FsPath) (l : List FsPath)
    (h : List.Sorted keyLe l) : List.Sorted keyLe (insort x l) := by
  induction l with
  | nil => simp [insort]
  | cons y ys ih =>
    rw [List.sorted_cons] at h
    obtain ⟨hy, hys⟩ := h
    by_cases hc : lexLe (sortKey y) (sortKey x) = true
    · rw [insort, if_pos hc, List.sorted_cons]
      refine ⟨?_, ih hys⟩
      intro z hz
      rcases List.mem_cons.mp ((insort_perm x ys).mem_iff.mp hz) with rfl | hz2
      · exact hc
      · exact hy z hz2
    · rw [insort, if_neg hc, List.sorted_cons]
      have hxy : lexLe (sortKey x) (sortKey y) = true :=
        (lexLe_total (sortKey y) (sortKey x)).resolve_left hc
      refine ⟨?_, by rw [List.sorted_cons]; exact ⟨hy, hys⟩⟩
      intro z hz
      rcases List.mem_cons.mp hz with rfl | hz2
      · exact hxy
      · exact lexLe_trans _ _ _ hxy (hy z hz2)

/-- The fold underlying `sort_images` sorts. -/
theorem sort_images_aux_sorted (l : List FsPath) : ∀ acc : List FsPath,
    List.Sorted keyLe acc →
    List.Sorted keyLe (l.foldl (fun a x => insort x a) acc) := by
  induction l with
  | nil => intro acc h; simpa using h
  | cons x t ih => intro acc h; exact ih (insort x acc) (insort_sorted x acc h)

/-- `sort_images` sorts by the case-insensitive filename key. -/
theorem sort_images_sorted (l : List FsPath) :
    List.Sorted keyLe (sort_images l) :=
  sort_images_aux_sorted l [] (by simp)

/-- A sorted list whose keys are distinct is sorted by the strict,
antisymmetric key order. -/
theorem sorted_strict_of_nodup_keys (l : List FsPath)
    (hs : List.Sorted keyLe l) (hn : (l.map sortKey).Nodup) :
    List.Sorted keyLt l := by
  have hpw : l.Pairwise (fun a b => sortKey a ≠ sortKey b) := List.pairwise_map.mp hn
  exact hs.and hpw

/-- Counterexample to C4 as stated: the distinct files `A.jpg` and
`a.JPG` share the lower-cased sort key, the sort is stable, and so two
native listing orders of identical directory contents yield different
discovery orders. -/
theorem discover_native_order_counterexample :
    [wEntryA, wEntryB].Perm [wEntryB, wEntryA] ∧
    discover_images [wEntryA, wEntryB] ≠ discover_images [wEntryB, wEntryA] := by
  constructor
  · exact List.Perm.swap wEntryB wEntryA []
  · decide

/-- C4 as amended: `discover_images` returns the supported files sorted
by the case-insensitive filename key, and identical directory contents
enumerated in any native orders yield the identical result provided no
two supported files share a lower-cased filename (equal keys keep native
order, because the sort is stable). -/
theorem discover_sorted_and_deterministic :
    (∀ entries : List DirEntry, List.Sorted keyLe (discover_images entries)) ∧
    (∀ e₁ e₂ : List DirEntry, e₁.Perm e₂ →
      ((supported_files e₁).map sortKey).Nodup →
      discover_images e₁ = discover_images e₂) := by
  constructor
  · intro entries
    exact sort_images_sorted (supported_files entries)
  · intro e₁ e₂ hperm hnodup
    have hsf : (supported_files e₁).Perm (supported_files e₂) := (hperm.filter _).map _
    have h1 : (discover_images e₁).Perm (supported_files e₁) := sort_images_perm _
    have h2 : (discover_images e₂).Perm (supported_files e₂) := sort_images_perm _
    have hp : (discover_images e₁).Perm (discover_images e₂) := (h1.trans hsf).trans h2.symm
    have hn₁ : ((discover_images e₁).map sortKey).Nodup :=
      ((h1.map sortKey).nodup_iff).mpr hnodup
    have hn₂ : ((discover_images e₂).map sortKey).Nodup :=
      ((hp.map sortKey).nodup_iff).mp hn₁
    exact List.eq_of_perm_of_sorted hp
      (sorted_strict_of_nodup_keys _ (sort_images_sorted _) hn₁)
      (sorted_strict_of_nodup_keys _ (sort_images_sorted _) hn₂)

/-- Witness for the amended C4: `A.jpg` and `B.png` have distinct keys,
so the two listing orders discover the same sorted result. -/
theorem discover_sorted_and_deterministic_witness :
    ((supported_files [wEntryA, wEntryC]).map sortKey).Nodup ∧
    [wEntryA, wEntryC].Perm [wEntryC, wEntryA] ∧
    discover_images [wEntryA, wEntryC] = discover_images [wEntryC, wEntryA] :=
  ⟨by decide, List.Perm.swap wEntryC wEntryA [],
   discover_sorted_and_deterministic.2 [wEntryA, wEntryC] [wEntryC, wEntryA]
     (List.Perm.swap wEntryC wEntryA []) (by decide)⟩
